import Mathlib

/-!
Verification of the `pepser` parser-combinator library and its JSON grammar.

Shallow embedding conventions:
* the input abstraction (`&str` with byte/char units) is modelled as `List Char`;
* `ParseResult<I, O> = Result<(I, O), ParserError>` is modelled by `PResult α`,
  with an extra `panic` outcome modelling Rust panics (out-of-bounds `split_at`,
  `Result::unwrap` on overflowing integer parses); a panic propagates through
  every combinator, as unwinding does in Rust;
* IEEE doubles are modelled as exact rationals (`ℚ`); `f64::powi` is modelled by
  `qpowi` (repeated multiplication, reciprocal for negative exponents);
* stateful closures (`FnMut`) are modelled as pure functions, which is faithful
  for every parser the repository constructs;
* the decorative single quotes that the Rust `format!` calls put around
  diagnostic excerpts are omitted from the modelled `reason` strings;
* `char::is_whitespace` is modelled on the ASCII white-space characters, which
  covers every input the repository exercises;
* unbounded loops (`Many::parse`, `Sep::parse`, recursion through `json_value`)
  are given fuel `input.length + 1`; exhausted fuel yields `panic`, and the
  theorems below show the fuel is irrelevant under the stated hypotheses.
-/

namespace Pepser

abbrev Str := List Char

/-- `ErrorSource` from `errors.rs`. -/
inductive ErrorSource where
  | Many
  | Sequence (matcher : Str)
  | TakeWhile
  | DropUntil
deriving DecidableEq, Repr

/-- `ParserError` from `errors.rs`. -/
structure ParserError where
  index : Nat
  source : ErrorSource
  reason : String
deriving DecidableEq, Repr

/-- `ParserError::from_error` from `errors.rs`: re-bases the inner offset. -/
def ParserError.from_error (error : ParserError) (index : Nat) : ParserError :=
  { index := error.index + index, source := error.source, reason := error.reason }

/-- `ParseResult<I, O>` plus a `panic` outcome for Rust panics. -/
inductive PResult (α : Type) where
  | ok (rem : Str) (val : α)
  | err (e : ParserError)
  | panic
deriving Repr, DecidableEq

def PResult.isOk {α : Type} : PResult α → Bool
  | .ok _ _ => true
  | _ => false

def PResult.isErr {α : Type} : PResult α → Bool
  | .err _ => true
  | _ => false

def PResult.errIndex {α : Type} : PResult α → Option Nat
  | .err e => some e.index
  | _ => none

/-- A parser is a function from input to outcome (`Parser::parse`). -/
def Parser (α : Type) : Type := Str → PResult α

/-- `And::parse` from `impls.rs`: run first, then second on the remainder. -/
def andP {α β : Type} (f : Parser α) (s : Parser β) : Parser (α × β) := fun input =>
  match f input with
  | .ok i a =>
    match s i with
    | .ok i2 b => .ok i2 (a, b)
    | .err e => .err e
    | .panic => .panic
  | .err e => .err e
  | .panic => .panic

/-- `Or::parse` from `impls.rs`: second runs on the original input when first fails. -/
def orP {α : Type} (f s : Parser α) : Parser α := fun input =>
  match f input with
  | .ok i a => .ok i a
  | .err _ => s input
  | .panic => .panic

/-- `Map::parse` from `impls.rs`. -/
def mapP {α β : Type} (p : Parser α) (f : α → β) : Parser β := fun input =>
  match p input with
  | .ok i a => .ok i (f a)
  | .err e => .err e
  | .panic => .panic

/-- A map whose function can panic (models `.map(str::parse).map(Result::unwrap)`). -/
def mapPanic {α β : Type} (p : Parser α) (f : α → Option β) : Parser β := fun input =>
  match p input with
  | .ok i a =>
    match f a with
    | some b => .ok i b
    | none => .panic
  | .err e => .err e
  | .panic => .panic

/-- `Discard::parse` from `impls.rs`. -/
def discardP {α β : Type} (d : Parser α) (p : Parser β) : Parser β := fun input =>
  match d input with
  | .ok i _ => p i
  | .err e => .err e
  | .panic => .panic

/-- `opt` from `traits.rs`: failure is swallowed, input restored. -/
def opt {α : Type} (f : Parser α) : Parser (Option α) := fun input =>
  match f input with
  | .ok i o => .ok i (some o)
  | .err _ => .ok input none
  | .panic => .panic

/-- `parse_if` from `traits.rs`. -/
def parse_if {α β : Type} (c : Parser α) (p : Parser β) : Parser (Option β) := fun ipt =>
  match c ipt with
  | .ok i _ =>
    match p i with
    | .ok i2 r => .ok i2 (some r)
    | .err e => .err e
    | .panic => .panic
  | .err _ => .ok ipt none
  | .panic => .panic

/-- `value` from `traits.rs`. -/
def valueP {α β : Type} (v : β) (p : Parser α) : Parser β := mapP p (fun _ => v)

/-- `wrapped` from `traits.rs`. -/
def wrappedP {α β γ : Type} (l : Parser α) (p : Parser β) (r : Parser γ) : Parser β :=
  fun input =>
    match l input with
    | .ok i _ =>
      match p i with
      | .ok i2 res =>
        match r i2 with
        | .ok i3 _ => .ok i3 res
        | .err e => .err e
        | .panic => .panic
      | .err e => .err e
      | .panic => .panic
    | .err e => .err e
    | .panic => .panic

/-- The loop body of `Many::parse` from `impls.rs`, with explicit fuel.
Exhausted fuel yields `panic` (models divergence, unreachable for parsers
that never lengthen their input when given fuel `input.length + 1`). -/
def manyLoop {α : Type} (p : Parser α) : Nat → Str → List α → PResult (List α)
  | 0, _, _ => .panic
  | fuel + 1, ipt, acc =>
    if ipt.length = 0 then .ok ipt acc
    else
      match p ipt with
      | .ok i res =>
        if i.length = ipt.length then .ok ipt acc
        else manyLoop p fuel i (acc ++ [res])
      | .err _ => .ok ipt acc
      | .panic => .panic

/-- `Many::parse` from `impls.rs`. -/
def manyP {α : Type} (p : Parser α) : Parser (List α) := fun input =>
  manyLoop p (input.length + 1) input []

/-- The loop body of `Sep::parse` from `impls.rs`, with explicit fuel. -/
def sepLoop {α β : Type} (p : Parser α) (s : Parser β) :
    Nat → Str → List α → PResult (List α)
  | 0, _, _ => .panic
  | fuel + 1, i, ans =>
    match p i with
    | .err _ => .ok i ans
    | .panic => .panic
    | .ok next res =>
      match s next with
      | .err _ => .ok next (ans ++ [res])
      | .panic => .panic
      | .ok next2 _ => sepLoop p s fuel next2 (ans ++ [res])

/-- `Sep::parse` from `impls.rs` (`sep_by`). -/
def sepP {α β : Type} (p : Parser α) (s : Parser β) : Parser (List α) := fun input =>
  sepLoop p s (input.length + 1) input []

/-- The loop of `DropUntil::parse` from `impls.rs`, with explicit fuel. -/
def duLoop {α : Type} (u : Parser α) (input : Str) : Nat → Nat → PResult α
  | 0, _ => .panic
  | fuel + 1, offset =>
    if input.length ≤ offset then
      .err ⟨0, .DropUntil, "could not find any match for drop until"⟩
    else
      match u (input.drop offset) with
      | .ok r v => .ok r v
      | .err _ => duLoop u input fuel (offset + 1)
      | .panic => .panic

/-- `DropUntil::parse` from `impls.rs`. -/
def dropUntilP {α : Type} (u : Parser α) : Parser α := fun input =>
  duLoop u input (input.length + 1) 0

/-- Index of the first mismatching character pair (the `zip`/`position` in `sequence`). -/
def firstMismatch (input matcher : Str) : Option Nat :=
  (input.zip matcher).findIdx? (fun pr => pr.1 != pr.2)

/-- The bounded diagnostic excerpt `&input[position..min(position + 10, len)]`. -/
def excerpt (input : Str) (pos : Nat) : Str := (input.drop pos).take 10

def mkSeqReason (ex : Str) : String := "could not parse sequence " ++ String.mk ex

def mkTwReason (input : Str) : String := "could not parse for char " ++ String.mk (input.take 1)

/-- `sequence` from `impls.rs`: literal matcher.  The `none` mismatch branch calls
`split_at(matcher.len())`, which panics when the input is shorter than the matcher. -/
def sequence (matcher : Str) : Parser Str := fun input =>
  if input.isEmpty then .err ⟨0, .Sequence matcher, "empty sequence"⟩
  else
    match firstMismatch input matcher with
    | some position => .err ⟨position, .Sequence matcher, mkSeqReason (excerpt input position)⟩
    | none =>
      if matcher.length ≤ input.length then .ok (input.drop matcher.length) (input.take matcher.length)
      else .panic

/-- `take_while` from `impls.rs`. -/
def take_while (pred : Char → Bool) : Parser Str := fun input =>
  if input.isEmpty then .err ⟨0, .TakeWhile, "empty sequence"⟩
  else
    match input.findIdx? (fun c => !(pred c)) with
    | some position =>
      if position = 0 then .err ⟨0, .TakeWhile, mkTwReason input⟩
      else .ok (input.drop position) (input.take position)
    | none => .ok [] input

/-- `none_of` from `impls.rs`. -/
def none_of (chars : Str) : Parser Str := take_while (fun c => !(chars.contains c))

/-- `any` from `impls.rs`. -/
def anyP (chars : Str) : Parser Str := take_while (fun c => chars.contains c)

/-- Rust `char::is_whitespace`, restricted to the ASCII white-space characters. -/
def isWs (c : Char) : Bool :=
  c = ' ' || c = '\t' || c = '\n' || c = '\r' || c = '\x0b' || c = '\x0c'

/-- `ws` from `impls.rs`. -/
def ws : Parser (Option Str) := opt (take_while isWs)

/-- Shorthand: a Lean string literal as the modelled input type. -/
def str (s : String) : Str := s.toList

/-! ## The JSON grammar of `tests/json.rs`

`tests/json.rs` holds the complete grammar (the copy in `src/parser/json.rs`
omits the number alternative from `json_value` and stubs `json_number`). -/

/-- Rust `c.is_digit(10)`. -/
def isDigit10 (c : Char) : Bool := '0' ≤ c && c ≤ '9'

/-- Numeric value of a digit run. -/
def digitsToNat (s : Str) : Nat := s.foldl (fun a c => 10 * a + (c.toNat - 48)) 0

/-- `str::parse::<u64>` on a digit run: fails (→ `unwrap` panic) on overflow. -/
def parseU64 (s : Str) : Option Nat :=
  if s.isEmpty then none
  else if s.all isDigit10 then
    if digitsToNat s < 18446744073709551616 then some (digitsToNat s) else none
  else none

/-- `str::parse::<i32>` on a digit run: fails (→ `unwrap` panic) on overflow. -/
def parseI32 (s : Str) : Option Int :=
  if s.isEmpty then none
  else if s.all isDigit10 then
    if digitsToNat s ≤ 2147483647 then some (digitsToNat s : Int) else none
  else none

/-- Natural-number power on `ℚ` by repeated multiplication. -/
def qpowNat (q : ℚ) : Nat → ℚ
  | 0 => 1
  | n + 1 => q * qpowNat q n

/-- Rust `f64::powi`: reciprocal of the positive power for negative exponents. -/
def qpowi (q : ℚ) (e : Int) : ℚ :=
  if 0 ≤ e then qpowNat q e.toNat else (qpowNat q (-e).toNat)⁻¹

/-- `format!("0.{}", ds).parse::<f64>()` on a digit run, as an exact rational. -/
def fracVal (ds : Str) : ℚ := (digitsToNat ds : ℚ) / qpowNat 10 ds.length

/-- `JsonValue` from `tests/json.rs` (`HashMap` modelled as its entry list,
`f64` as `ℚ`). -/
inductive JsonValue where
  | Array (items : List JsonValue)
  | Boolean (b : Bool)
  | String (s : List Char)
  | Number (n : ℚ)
  | Object (entries : List (List Char × JsonValue))
  | Null

/-- One `HashMap` insertion: replace the entry of an existing key, else append. -/
def hashInsert (m : List (List Char × JsonValue)) (kv : List Char × JsonValue) :
    List (List Char × JsonValue) :=
  if m.any (fun p => p.1 == kv.1) then m.map (fun p => if p.1 == kv.1 then (p.1, kv.2) else p)
  else m ++ [kv]

/-- `Vec::into_iter().collect::<HashMap<_,_>>()`: later duplicates overwrite. -/
def collectMap (l : List (List Char × JsonValue)) : List (List Char × JsonValue) :=
  l.foldl hashInsert []

/-- `null` from `tests/json.rs`. -/
def nullP : Parser JsonValue := mapP (sequence (str "null")) (fun _ => JsonValue.Null)

/-- `boolean` from `tests/json.rs`. -/
def boolean : Parser JsonValue :=
  mapP (orP (sequence (str "true")) (sequence (str "false")))
    (fun s => JsonValue.Boolean (s == str "true"))

/-- `escaped` from `tests/json.rs`. -/
def escaped : Parser Str :=
  orP (orP (orP (orP (orP (orP (orP
    (mapP (sequence (str "\\\\")) (fun _ => str "\\"))
    (mapP (sequence (str "\\\"")) (fun _ => str "\"")))
    (mapP (sequence (str "\\n")) (fun _ => str "\n")))
    (mapP (sequence (str "\\t")) (fun _ => str "\t")))
    (mapP (sequence (str "\\r")) (fun _ => str "\r")))
    (mapP (sequence (str "\\/")) (fun _ => str "/")))
    (mapP (sequence (str "\\f")) (fun _ => str "\x0c")))
    (mapP (sequence (str "\\b")) (fun _ => str "\x08"))

/-- `string` from `tests/json.rs` (the collected text kept as a char list). -/
def stringP : Parser (List Char) :=
  wrappedP (sequence (str "\""))
    (mapP (manyP (orP (none_of (str "\"\\")) escaped)) (fun parts => parts.flatten))
    (sequence (str "\""))

/-- The sign part of `json_number`. -/
def signPart : Parser Int :=
  mapP (opt (sequence (str "-"))) (fun o => if o.isSome then -1 else 1)

/-- `digits` from `tests/json.rs`. -/
def digits : Parser Str := take_while isDigit10

/-- `integral_part` from `tests/json.rs`. -/
def integral_part : Parser Nat := mapPanic (orP (sequence (str "0")) digits) parseU64

/-- `decimal_part` from `tests/json.rs`. -/
def decimal_part : Parser ℚ :=
  mapP (parse_if (sequence (str ".")) digits)
    (fun o => match o with
      | some ds => fracVal ds
      | none => 0)

/-- `exponent` from `tests/json.rs`. -/
def exponentP : Parser Int :=
  mapP
    (opt
      (mapPanic
        (andP
          (discardP (anyP (str "eE"))
            (mapP
              (opt (orP (valueP (-1 : Int) (sequence (str "-")))
                (valueP (1 : Int) (sequence (str "+")))))
              (fun o => o.getD 1)))
          digits)
        (fun ab => (parseI32 ab.2).map (fun n => ab.1 * n))))
    (fun o => o.getD 1)

/-- `calculate_number` from `tests/json.rs`: the whole signed mantissa is raised
to the exponent power. -/
def calculate_number (sign : Int) (integral : Nat) (decimal : ℚ) (exponent : Int) : ℚ :=
  qpowi ((sign : ℚ) * ((integral : ℚ) + decimal)) exponent

/-- `json_number` from `tests/json.rs`. -/
def json_number : Parser JsonValue :=
  mapP (andP (andP (andP signPart integral_part) decimal_part) exponentP)
    (fun t => JsonValue.Number (calculate_number t.1.1.1 t.1.1.2 t.1.2 t.2))

/-- `json_pair` from `tests/json.rs`, parameterized by the value parser. -/
def jsonPairG (jv : Parser JsonValue) : Parser (List Char × JsonValue) :=
  wrappedP ws
    (andP stringP (discardP (wrappedP ws (sequence (str ":")) ws) jv))
    ws

/-- `array` from `tests/json.rs`, parameterized by the value parser. -/
def arrayG (jv : Parser JsonValue) : Parser JsonValue :=
  wrappedP (sequence (str "["))
    (mapP (wrappedP ws (sepP jv (sequence (str ","))) ws) JsonValue.Array)
    (sequence (str "]"))

/-- `json_object` from `tests/json.rs`, parameterized by the value parser. -/
def objectG (jv : Parser JsonValue) : Parser JsonValue :=
  mapP
    (wrappedP (sequence (str "\x7b"))
      (sepP (jsonPairG jv) (sequence (str ",")))
      (discardP ws (sequence (str "\x7d"))))
    (fun l => JsonValue.Object (collectMap l))

/-- `json_value` from `tests/json.rs`, with recursion fuel: whitespace skip,
then ordered choice null / boolean / array / object / string / number. -/
def jsonValueF : Nat → Parser JsonValue
  | 0 => fun _ => .panic
  | f + 1 =>
    discardP ws
      (orP
        (orP
          (orP (orP (orP nullP boolean) (arrayG (jsonValueF f))) (objectG (jsonValueF f)))
          (mapP stringP JsonValue.String))
        json_number)

/-- The `json_value` entry point (fuel `input.length + 1` suffices because each
recursion level consumes at least one unit). -/
def json_value : Parser JsonValue := fun input => jsonValueF (input.length + 1) input

/-- The `json_object` entry point. -/
def json_object : Parser JsonValue := fun input => objectG (jsonValueF (input.length + 1)) input

/-! ## Values extracted from the pieces of a JSON number token -/

/-- The sign factor the optional leading minus contributes. -/
def numSign (sgn : Str) : Int := if sgn.isEmpty then 1 else -1

/-- The fractional contribution of the optional `.digits` piece. -/
def fracPart : Str → ℚ
  | [] => 0
  | _ :: fd => fracVal fd

/-- The exponent the optional `[eE][+-]?digits` piece produces (default 1). -/
def expPart : Str → Int
  | [] => 1
  | _ :: rest =>
    match rest with
    | [] => 1
    | c :: rest' =>
      if c = '-' then -(digitsToNat rest' : Int)
      else if c = '+' then (digitsToNat rest' : Int)
      else (digitsToNat (c :: rest') : Int)

/-- `m` is a prefix of `input` (Boolean, for decidable statements). -/
def startsWith (input m : Str) : Bool := decide (input.take m.length = m)

/-! ## A syntax for the combinator language (for system-wide invariants)

Every parser the spec's combinator set can build, as a tree; `denote` erases
outputs (which never influence consumption) and interprets each node by the
corresponding shallow combinator. -/

inductive PSyn where
  | seqS (m : Str)
  | takeWhileS (pred : Char → Bool)
  | andS (a b : PSyn)
  | orS (a b : PSyn)
  | mapS (p : PSyn)
  | manyS (p : PSyn)
  | sepS (p s : PSyn)
  | wrappedS (l p r : PSyn)
  | discardS (d p : PSyn)
  | optS (p : PSyn)
  | parseIfS (c p : PSyn)
  | valueS (p : PSyn)
  | dropUntilS (u : PSyn)

/-- Interpretation of a combinator tree (outputs erased — consumption and the
success/failure/panic verdict never depend on them). -/
def denote : PSyn → Parser Unit
  | .seqS m => mapP (sequence m) (fun _ => ())
  | .takeWhileS pred => mapP (take_while pred) (fun _ => ())
  | .andS a b => mapP (andP (denote a) (denote b)) (fun _ => ())
  | .orS a b => orP (denote a) (denote b)
  | .mapS p => denote p
  | .manyS p => mapP (manyP (denote p)) (fun _ => ())
  | .sepS p s => mapP (sepP (denote p) (denote s)) (fun _ => ())
  | .wrappedS l p r => wrappedP (denote l) (denote p) (denote r)
  | .discardS d p => discardP (denote d) (denote p)
  | .optS p => mapP (opt (denote p)) (fun _ => ())
  | .parseIfS c p => mapP (parse_if (denote c) (denote p)) (fun _ => ())
  | .valueS p => valueP () (denote p)
  | .dropUntilS u => dropUntilP (denote u)

/-- The productions that always consume at least one unit on success. -/
def strictCons : PSyn → Bool
  | .seqS m => !m.isEmpty
  | .takeWhileS _ => true
  | .andS a b => strictCons a || strictCons b
  | .orS a b => strictCons a && strictCons b
  | .mapS p => strictCons p
  | .manyS _ => false
  | .sepS _ _ => false
  | .wrappedS l p r => strictCons l || strictCons p || strictCons r
  | .discardS d p => strictCons d || strictCons p
  | .optS _ => false
  | .parseIfS _ _ => false
  | .valueS p => strictCons p
  | .dropUntilS u => strictCons u

/-- The zero-consumption exceptions the spec names: `opt`, `many`, and the
optional parts of the JSON number grammar (`opt`/`parse_if`). -/
def claimStrict : PSyn → Bool
  | .seqS _ => true
  | .takeWhileS _ => true
  | .andS a b => claimStrict a && claimStrict b
  | .orS a b => claimStrict a && claimStrict b
  | .mapS p => claimStrict p
  | .manyS _ => false
  | .sepS p s => claimStrict p && claimStrict s
  | .wrappedS l p r => claimStrict l && claimStrict p && claimStrict r
  | .discardS d p => claimStrict d && claimStrict p
  | .optS _ => false
  | .parseIfS _ _ => false
  | .valueS p => claimStrict p
  | .dropUntilS u => claimStrict u

/-! ## Helper lemmas about the primitive matchers -/

theorem firstMismatch_self (m t : Str) : firstMismatch (m ++ t) m = none := by
  induction m with
  | nil => simp [firstMismatch]
  | cons c m' ih =>
    simp only [firstMismatch, List.cons_append, List.zip_cons_cons, List.findIdx?_cons]
    have hc : (c != c) = false := by simp
    rw [hc]
    simp only [if_false, List.findIdx?_succ]
    simp only [firstMismatch] at ih
    rw [ih]
    rfl

theorem firstMismatch_of_front (i m : Str) (h : ∃ t, m = i ++ t) : firstMismatch i m = none := by
  obtain ⟨t, rfl⟩ := h
  induction i with
  | nil => simp [firstMismatch]
  | cons c i' ih =>
    simp only [firstMismatch, List.cons_append, List.zip_cons_cons, List.findIdx?_cons]
    have hc : (c != c) = false := by simp
    rw [hc]
    simp only [if_false, List.findIdx?_succ]
    simp only [firstMismatch] at ih
    rw [ih]
    rfl

/-- `sequence` on `matcher ++ rest` succeeds whenever the input is nonempty. -/
theorem seq_append (m t : Str) (h : m ++ t ≠ []) : sequence m (m ++ t) = .ok t m := by
  have he : (m ++ t).isEmpty = false := by
    cases hmt : m ++ t with
    | nil => exact absurd hmt h
    | cons a l => rfl
  have hlen : m.length ≤ (m ++ t).length := by simp
  simp only [sequence, he, Bool.false_eq_true, if_false, firstMismatch_self, hlen, if_true,
    List.drop_left, List.take_left]

/-- `sequence` fails with a `LiteralMismatch` at offset 0 when the heads differ. -/
theorem seq_mismatch0 (a b : Char) (m' i' : Str) (h : a ≠ b) :
    sequence (a :: m') (b :: i') =
      .err ⟨0, .Sequence (a :: m'), mkSeqReason (excerpt (b :: i') 0)⟩ := by
  have hb : (b != a) = true := by simpa [bne_iff_ne] using (Ne.symm h)
  simp [sequence, firstMismatch, List.zip_cons_cons, List.findIdx?_cons, hb]

/-- `sequence` panics on a nonempty input that is a proper prefix of the literal. -/
theorem seq_short_panic (m i : Str) (hi : i ≠ []) (hpre : ∃ t, m = i ++ t)
    (hlt : i.length < m.length) : sequence m i = .panic := by
  have he : i.isEmpty = false := by
    cases i with
    | nil => exact absurd rfl hi
    | cons a l => rfl
  have hnle : ¬ (m.length ≤ i.length) := by omega
  simp only [sequence, he, Bool.false_eq_true, if_false, firstMismatch_of_front i m hpre, hnle]

theorem findIdx?_all_false {p : Char → Bool} (l : Str) (h : ∀ c ∈ l, p c = false) :
    l.findIdx? p = none :=
  List.findIdx?_eq_none_iff.mpr h

theorem findIdx?_run {p : Char → Bool} (u : Str) (c : Char) (t' : Str)
    (hu : ∀ x ∈ u, p x = false) (hc : p c = true) :
    (u ++ c :: t').findIdx? p = some u.length := by
  induction u with
  | nil => simp [hc]
  | cons a u' ih =>
    have ha : p a = false := hu a (by simp)
    have ih' := ih (fun x hx => hu x (by simp [hx]))
    simp only [List.cons_append, List.findIdx?_cons, ha, Bool.false_eq_true, if_false,
      List.findIdx?_succ, ih', Option.map_some']
    rfl

/-- `take_while` consumes exactly a nonempty maximal run. -/
theorem tw_run (p : Char → Bool) (u t : Str) (hu : u ≠ []) (hru : ∀ x ∈ u, p x = true)
    (ht : t = [] ∨ ∃ c t', t = c :: t' ∧ p c = false) :
    take_while p (u ++ t) = .ok t u := by
  have he : (u ++ t).isEmpty = false := by
    cases u with
    | nil => exact absurd rfl hu
    | cons a l => rfl
  rcases ht with rfl | ⟨c, t', rfl, hc⟩
  · have hnone : u.findIdx? (fun c => !(p c)) = none := by
      apply findIdx?_all_false
      intro x hx
      simp [hru x hx]
    simp [take_while, hu, hnone]
  · have hsome : (u ++ c :: t').findIdx? (fun c => !(p c)) = some u.length := by
      apply findIdx?_run
      · intro x hx; simp [hru x hx]
      · simp [hc]
    have hu0 : u.length ≠ 0 := by
      cases u with
      | nil => exact absurd rfl hu
      | cons a l => simp
    simp only [take_while, he, Bool.false_eq_true, if_false, hsome, hu0, List.drop_left,
      List.take_left, if_false]

theorem tw_nil (p : Char → Bool) : take_while p [] = .err ⟨0, .TakeWhile, "empty sequence"⟩ :=
  rfl

/-- `take_while` fails at offset 0 when the first character fails the predicate. -/
theorem tw_head_false (p : Char → Bool) (c : Char) (l : Str) (h : p c = false) :
    take_while p (c :: l) = .err ⟨0, .TakeWhile, mkTwReason (c :: l)⟩ := by
  simp [take_while, List.findIdx?_cons, h]

/-! ## Helper lemmas about the combinators -/

theorem or_ok {α : Type} (f g : Parser α) (i r : Str) (v : α) (h : f i = .ok r v) :
    orP f g i = .ok r v := by
  simp [orP, h]

theorem or_err {α : Type} (f g : Parser α) (i : Str) (e : ParserError) (h : f i = .err e) :
    orP f g i = g i := by
  simp [orP, h]

theorem map_ok {α β : Type} (p : Parser α) (f : α → β) (i r : Str) (v : α)
    (h : p i = .ok r v) : mapP p f i = .ok r (f v) := by
  simp [mapP, h]

theorem map_err {α β : Type} (p : Parser α) (f : α → β) (i : Str) (e : ParserError)
    (h : p i = .err e) : mapP p f i = .err e := by
  simp [mapP, h]

theorem opt_ok {α : Type} (f : Parser α) (i r : Str) (v : α) (h : f i = .ok r v) :
    opt f i = .ok r (some v) := by
  simp [opt, h]

theorem opt_err {α : Type} (f : Parser α) (i : Str) (e : ParserError) (h : f i = .err e) :
    opt f i = .ok i none := by
  simp [opt, h]

theorem discard_ok {α β : Type} (d : Parser α) (p : Parser β) (i i2 : Str) (o : α)
    (h : d i = .ok i2 o) : discardP d p i = p i2 := by
  simp [discardP, h]

theorem and_ok {α β : Type} (f : Parser α) (s : Parser β) (i i2 i3 : Str) (a : α) (b : β)
    (hf : f i = .ok i2 a) (hs : s i2 = .ok i3 b) : andP f s i = .ok i3 (a, b) := by
  simp [andP, hf, hs]

theorem and_err2 {α β : Type} (f : Parser α) (s : Parser β) (i i2 : Str) (a : α)
    (e : ParserError) (hf : f i = .ok i2 a) (hs : s i2 = .err e) : andP f s i = .err e := by
  simp [andP, hf, hs]

/-- `ws` consumes exactly a (possibly empty) maximal run of whitespace. -/
theorem ws_skip (w t : Str) (hw : ∀ c ∈ w, isWs c = true)
    (ht : t = [] ∨ ∃ c t', t = c :: t' ∧ isWs c = false) :
    ∃ o, ws (w ++ t) = .ok t o := by
  cases w with
  | nil =>
    rcases ht with rfl | ⟨c, t', rfl, hc⟩
    · exact ⟨none, rfl⟩
    · exact ⟨none, opt_err _ _ _ (tw_head_false isWs c t' hc)⟩
  | cons a w' =>
    refine ⟨some (a :: w'), ?_⟩
    exact opt_ok _ _ _ _ (tw_run isWs (a :: w') t (by simp) hw ht)

theorem and_err1 {α β : Type} (f : Parser α) (s : Parser β) (i : Str) (e : ParserError)
    (hf : f i = .err e) : andP f s i = .err e := by
  simp [andP, hf]

theorem discard_err {α β : Type} (d : Parser α) (p : Parser β) (i : Str) (e : ParserError)
    (h : d i = .err e) : discardP d p i = .err e := by
  simp [discardP, h]

theorem wrapped_err1 {α β γ : Type} (l : Parser α) (p : Parser β) (r : Parser γ) (i : Str)
    (e : ParserError) (h : l i = .err e) : wrappedP l p r i = .err e := by
  simp [wrappedP, h]

theorem mapPanic_ok {α β : Type} (p : Parser α) (f : α → Option β) (i r : Str) (a : α) (b : β)
    (hp : p i = .ok r a) (hf : f a = some b) : mapPanic p f i = .ok r b := by
  simp [mapPanic, hp, hf]

theorem mapPanic_err {α β : Type} (p : Parser α) (f : α → Option β) (i : Str) (e : ParserError)
    (hp : p i = .err e) : mapPanic p f i = .err e := by
  simp [mapPanic, hp]

theorem mapPanic_panic {α β : Type} (p : Parser α) (f : α → Option β) (i r : Str) (a : α)
    (hp : p i = .ok r a) (hf : f a = none) : mapPanic p f i = .panic := by
  simp [mapPanic, hp, hf]

theorem pif_ok {α β : Type} (c : Parser α) (p : Parser β) (i i2 i3 : Str) (o : α) (r : β)
    (hc : c i = .ok i2 o) (hp : p i2 = .ok i3 r) : parse_if c p i = .ok i3 (some r) := by
  simp [parse_if, hc, hp]

theorem pif_condfail {α β : Type} (c : Parser α) (p : Parser β) (i : Str) (e : ParserError)
    (hc : c i = .err e) : parse_if c p i = .ok i none := by
  simp [parse_if, hc]

/-! ## Character-class facts -/

theorem digit_ne (c ch : Char) (hc : isDigit10 c = true) (hch : isDigit10 ch = false) :
    c ≠ ch := by
  intro h
  rw [h, hch] at hc
  cases hc

theorem digit_not_ws (c : Char) (hc : isDigit10 c = true) : isWs c = false := by
  cases h : isWs c
  · rfl
  · exfalso
    simp only [isWs, Bool.or_eq_true, decide_eq_true_eq] at h
    rcases h with ((((h | h) | h) | h) | h) | h <;> subst h <;> exact absurd hc (by decide)

theorem parseU64_digits (d : Str) (h1 : d ≠ []) (h2 : d.all isDigit10 = true)
    (h3 : digitsToNat d < 18446744073709551616) : parseU64 d = some (digitsToNat d) := by
  have he : d.isEmpty = false := by
    cases d with
    | nil => exact absurd rfl h1
    | cons a l => rfl
  simp [parseU64, he, h2, h3]

theorem parseI32_digits (d : Str) (h1 : d ≠ []) (h2 : d.all isDigit10 = true)
    (h3 : digitsToNat d ≤ 2147483647) : parseI32 d = some (digitsToNat d : Int) := by
  have he : d.isEmpty = false := by
    cases d with
    | nil => exact absurd rfl h1
    | cons a l => rfl
  simp [parseI32, he, h2, h3]

/-! ## The pieces of `json_number` on a well-formed token -/

theorem sign_ok (sgn t : Str) (hsgn : sgn = [] ∨ sgn = ['-'])
    (ht : ∃ c t', t = c :: t' ∧ isDigit10 c = true) :
    signPart (sgn ++ t) = .ok t (numSign sgn) := by
  obtain ⟨c, t', rfl, hc⟩ := ht
  rcases hsgn with rfl | rfl
  · have hne : ('-' : Char) ≠ c := Ne.symm (digit_ne c '-' hc (by decide))
    have herr : sequence (str "-") ([] ++ c :: t') = .err
        ⟨0, .Sequence ['-'], mkSeqReason (excerpt (c :: t') 0)⟩ := by
      rw [show str "-" = ['-'] from rfl, List.nil_append]
      exact seq_mismatch0 '-' c [] t' hne
    unfold signPart
    rw [map_ok _ _ _ _ _ (opt_err _ _ _ herr)]
    rfl
  · have hseq : sequence (str "-") (['-'] ++ c :: t') = .ok (c :: t') ['-'] := by
      rw [show str "-" = ['-'] from rfl]
      exact seq_append ['-'] (c :: t') (by simp)
    unfold signPart
    rw [map_ok _ _ _ _ _ (opt_ok _ _ _ _ hseq)]
    rfl

theorem integral_ok (d t : Str)
    (hd : d = ['0'] ∨ (d ≠ [] ∧ d.all isDigit10 = true ∧ d.head? ≠ some '0'))
    (hdb : digitsToNat d < 18446744073709551616)
    (ht : t = [] ∨ ∃ c t', t = c :: t' ∧ isDigit10 c = false) :
    integral_part (d ++ t) = .ok t (digitsToNat d) := by
  rcases hd with rfl | ⟨h1, h2, h3⟩
  · have hseq : sequence (str "0") (['0'] ++ t) = .ok t ['0'] := by
      rw [show str "0" = ['0'] from rfl]
      exact seq_append ['0'] t (by simp)
    unfold integral_part
    rw [mapPanic_ok _ _ _ _ _ _ (or_ok _ _ _ _ _ hseq)
      (show parseU64 ['0'] = some (digitsToNat ['0']) from by decide)]
  · obtain ⟨c, d', rfl⟩ : ∃ c d', d = c :: d' := by
      cases d with
      | nil => exact absurd rfl h1
      | cons c d' => exact ⟨c, d', rfl⟩
    have hc : isDigit10 c = true := by
      simp only [List.all_cons, Bool.and_eq_true] at h2
      exact h2.1
    have hc0 : c ≠ '0' := by
      intro h
      rw [h] at h3
      exact h3 rfl
    have herr : sequence (str "0") ((c :: d') ++ t) = .err
        ⟨0, .Sequence ['0'], mkSeqReason (excerpt (c :: (d' ++ t)) 0)⟩ := by
      rw [show str "0" = ['0'] from rfl, List.cons_append]
      exact seq_mismatch0 '0' c [] (d' ++ t) (Ne.symm hc0)
    have hdig : digits ((c :: d') ++ t) = .ok t (c :: d') := by
      apply tw_run isDigit10 (c :: d') t (by simp)
      · intro x hx
        have := List.all_eq_true.mp h2
        exact this x hx
      · exact ht
    unfold integral_part
    rw [mapPanic_ok _ _ _ _ _ _ ((or_err _ _ _ _ herr).trans hdig)
      (parseU64_digits (c :: d') (by simp) h2 hdb)]

theorem decimal_ok (fr t : Str)
    (hfr : fr = [] ∨ ∃ fd, fr = '.' :: fd ∧ fd ≠ [] ∧ fd.all isDigit10 = true)
    (ht : t = [] ∨ ∃ c t', t = c :: t' ∧ isDigit10 c = false ∧ c ≠ '.') :
    decimal_part (fr ++ t) = .ok t (fracPart fr) := by
  rcases hfr with rfl | ⟨fd, rfl, hfd1, hfd2⟩
  · have herr : ∃ e, sequence (str ".") ([] ++ t) = .err e := by
      rcases ht with rfl | ⟨c, t', rfl, hcd, hcp⟩
      · exact ⟨_, rfl⟩
      · exact ⟨⟨0, .Sequence ['.'], mkSeqReason (excerpt (c :: t') 0)⟩, by
          rw [show str "." = ['.'] from rfl, List.nil_append]
          exact seq_mismatch0 '.' c [] t' (Ne.symm hcp)⟩
    obtain ⟨e, herr⟩ := herr
    unfold decimal_part
    rw [map_ok _ _ _ _ _ (pif_condfail _ _ _ _ herr)]
    rfl
  · have hseq : sequence (str ".") (('.' :: fd) ++ t) = .ok (fd ++ t) ['.'] := by
      rw [show str "." = ['.'] from rfl, show ('.' :: fd) ++ t = ['.'] ++ (fd ++ t) from rfl]
      exact seq_append ['.'] (fd ++ t) (by simp)
    have hdig : digits (fd ++ t) = .ok t fd := by
      apply tw_run isDigit10 fd t hfd1
      · intro x hx
        exact List.all_eq_true.mp hfd2 x hx
      · rcases ht with rfl | ⟨c, t', rfl, hcd, hcp⟩
        · exact Or.inl rfl
        · exact Or.inr ⟨c, t', rfl, hcd⟩
    unfold decimal_part
    rw [map_ok _ _ _ _ _ (pif_ok _ _ _ _ _ _ _ hseq hdig)]
    rfl

theorem value_ok {α β : Type} (v : β) (p : Parser α) (i r : Str) (a : α) (h : p i = .ok r a) :
    valueP v p i = .ok r v := by
  simp [valueP, mapP, h]

theorem value_err {α β : Type} (v : β) (p : Parser α) (i : Str) (e : ParserError)
    (h : p i = .err e) : valueP v p i = .err e := by
  simp [valueP, mapP, h]

theorem exponent_ok (ex r : Str)
    (hex : ex = [] ∨ ∃ ec es ed, (ec = 'e' ∨ ec = 'E') ∧ (es = [] ∨ es = ['-'] ∨ es = ['+'])
      ∧ ed ≠ [] ∧ ed.all isDigit10 = true ∧ digitsToNat ed ≤ 2147483647
      ∧ ex = ec :: (es ++ ed))
    (hr : r = [] ∨ ∃ c r', r = c :: r' ∧ isDigit10 c = false ∧ c ≠ 'e' ∧ c ≠ 'E') :
    exponentP (ex ++ r) = .ok r (expPart ex) := by
  rcases hex with rfl | ⟨ec, es, ed, hec, hes, hed1, hed2, hed3, rfl⟩
  · rw [List.nil_append]
    have herr : ∃ e, anyP (str "eE") r = .err e := by
      rcases hr with rfl | ⟨c, r', rfl, hcd, hce, hcE⟩
      · exact ⟨⟨0, .TakeWhile, "empty sequence"⟩, rfl⟩
      · have hcont : ((str "eE").contains c) = false := by
          rw [show str "eE" = ['e', 'E'] from rfl]
          simp [hce, hcE]
        exact ⟨⟨0, .TakeWhile, mkTwReason (c :: r')⟩, tw_head_false _ c r' hcont⟩
    obtain ⟨e, herr⟩ := herr
    unfold exponentP
    rw [map_ok _ _ _ _ _ (opt_err _ _ _
      (mapPanic_err _ _ _ _ (and_err1 _ _ _ _ (discard_err _ _ _ _ herr))))]
    rfl
  · obtain ⟨e0, ed', rfl⟩ : ∃ e0 ed', ed = e0 :: ed' := by
      cases ed with
      | nil => exact absurd rfl hed1
      | cons a l => exact ⟨a, l, rfl⟩
    have hed0 : isDigit10 e0 = true := by
      simp only [List.all_cons, Bool.and_eq_true] at hed2
      exact hed2.1
    have hcontec : ((str "eE").contains ec) = true := by
      rcases hec with rfl | rfl <;> decide
    have hdigits : digits ((e0 :: ed') ++ r) = .ok r (e0 :: ed') := by
      apply tw_run isDigit10 (e0 :: ed') r (by simp)
      · intro x hx
        exact List.all_eq_true.mp hed2 x hx
      · rcases hr with rfl | ⟨c, r', rfl, hcd, hce, hcE⟩
        · exact Or.inl rfl
        · exact Or.inr ⟨c, r', rfl, hcd⟩
    have hparse : (fun ab => (parseI32 ab.2).map (fun n => ab.1 * n))
        ((1 : Int), e0 :: ed') = some ((1 : Int) * (digitsToNat (e0 :: ed') : Int)) := by
      simp only [parseI32_digits (e0 :: ed') (by simp) hed2 hed3, Option.map_some']
    have hparseNeg : (fun ab => (parseI32 ab.2).map (fun n => ab.1 * n))
        ((-1 : Int), e0 :: ed') = some ((-1 : Int) * (digitsToNat (e0 :: ed') : Int)) := by
      simp only [parseI32_digits (e0 :: ed') (by simp) hed2 hed3, Option.map_some']
    rcases hes with rfl | rfl | rfl
    · -- no explicit exponent sign: the digit run follows the marker directly
      simp only [List.nil_append]
      have han : anyP (str "eE") ((ec :: (e0 :: ed')) ++ r) = .ok ((e0 :: ed') ++ r) [ec] := by
        rw [show (ec :: (e0 :: ed')) ++ r = [ec] ++ ((e0 :: ed') ++ r) from rfl,
          show (e0 :: ed') ++ r = e0 :: (ed' ++ r) from rfl]
        apply tw_run _ [ec] (e0 :: (ed' ++ r)) (by simp)
        · intro x hx
          simp only [List.mem_singleton] at hx
          subst hx
          exact hcontec
        · refine Or.inr ⟨e0, ed' ++ r, rfl, ?_⟩
          rw [show str "eE" = ['e', 'E'] from rfl]
          simp [digit_ne e0 'e' hed0 (by decide), digit_ne e0 'E' hed0 (by decide)]
      have hm : sequence (str "-") ((e0 :: ed') ++ r) = .err
          ⟨0, .Sequence ['-'], mkSeqReason (excerpt (e0 :: (ed' ++ r)) 0)⟩ := by
        rw [show str "-" = ['-'] from rfl, List.cons_append]
        exact seq_mismatch0 '-' e0 [] (ed' ++ r)
          (Ne.symm (digit_ne e0 '-' hed0 (by decide)))
      have hp : sequence (str "+") ((e0 :: ed') ++ r) = .err
          ⟨0, .Sequence ['+'], mkSeqReason (excerpt (e0 :: (ed' ++ r)) 0)⟩ := by
        rw [show str "+" = ['+'] from rfl, List.cons_append]
        exact seq_mismatch0 '+' e0 [] (ed' ++ r)
          (Ne.symm (digit_ne e0 '+' hed0 (by decide)))
      have hsign : (mapP (opt (orP (valueP (-1 : Int) (sequence (str "-")))
          (valueP (1 : Int) (sequence (str "+"))))) (fun o => o.getD 1))
          ((e0 :: ed') ++ r) = .ok ((e0 :: ed') ++ r) (1 : Int) := by
        rw [map_ok _ _ _ _ _ (opt_err _ _ _
          ((or_err _ _ _ _ (value_err _ _ _ _ hm)).trans (value_err _ _ _ _ hp)))]
        rfl
      unfold exponentP
      rw [map_ok _ _ _ _ _ (opt_ok _ _ _ _ (mapPanic_ok _ _ _ _ _ _
        (and_ok _ _ _ _ _ _ _ ((discard_ok _ _ _ _ _ han).trans hsign) hdigits) hparse))]
      have hne1 : e0 ≠ '-' := digit_ne e0 '-' hed0 (by decide)
      have hne2 : e0 ≠ '+' := digit_ne e0 '+' hed0 (by decide)
      simp [expPart, hne1, hne2]
    · -- explicit minus sign on the exponent
      have han : anyP (str "eE") ((ec :: (['-'] ++ (e0 :: ed'))) ++ r)
          = .ok ((['-'] ++ (e0 :: ed')) ++ r) [ec] := by
        rw [show (ec :: (['-'] ++ (e0 :: ed'))) ++ r = [ec] ++ ((['-'] ++ (e0 :: ed')) ++ r)
          from rfl, show (['-'] ++ (e0 :: ed')) ++ r = '-' :: ((e0 :: ed') ++ r) from rfl]
        apply tw_run _ [ec] ('-' :: ((e0 :: ed') ++ r)) (by simp)
        · intro x hx
          simp only [List.mem_singleton] at hx
          subst hx
          exact hcontec
        · exact Or.inr ⟨'-', (e0 :: ed') ++ r, rfl, by decide⟩
      have hm : sequence (str "-") ((['-'] ++ (e0 :: ed')) ++ r)
          = .ok ((e0 :: ed') ++ r) ['-'] := by
        rw [show str "-" = ['-'] from rfl,
          show (['-'] ++ (e0 :: ed')) ++ r = ['-'] ++ ((e0 :: ed') ++ r) from rfl]
        exact seq_append ['-'] ((e0 :: ed') ++ r) (by simp)
      have hsign : (mapP (opt (orP (valueP (-1 : Int) (sequence (str "-")))
          (valueP (1 : Int) (sequence (str "+"))))) (fun o => o.getD 1))
          ((['-'] ++ (e0 :: ed')) ++ r) = .ok ((e0 :: ed') ++ r) (-1 : Int) := by
        rw [map_ok _ _ _ _ _ (opt_ok _ _ _ _ (or_ok _ _ _ _ _ (value_ok _ _ _ _ _ hm)))]
        rfl
      unfold exponentP
      rw [map_ok _ _ _ _ _ (opt_ok _ _ _ _ (mapPanic_ok _ _ _ _ _ _
        (and_ok _ _ _ _ _ _ _ ((discard_ok _ _ _ _ _ han).trans hsign) hdigits) hparseNeg))]
      simp [expPart]
    · -- explicit plus sign on the exponent
      have han : anyP (str "eE") ((ec :: (['+'] ++ (e0 :: ed'))) ++ r)
          = .ok ((['+'] ++ (e0 :: ed')) ++ r) [ec] := by
        rw [show (ec :: (['+'] ++ (e0 :: ed'))) ++ r = [ec] ++ ((['+'] ++ (e0 :: ed')) ++ r)
          from rfl, show (['+'] ++ (e0 :: ed')) ++ r = '+' :: ((e0 :: ed') ++ r) from rfl]
        apply tw_run _ [ec] ('+' :: ((e0 :: ed') ++ r)) (by simp)
        · intro x hx
          simp only [List.mem_singleton] at hx
          subst hx
          exact hcontec
        · exact Or.inr ⟨'+', (e0 :: ed') ++ r, rfl, by decide⟩
      have hm : sequence (str "-") ((['+'] ++ (e0 :: ed')) ++ r) = .err
          ⟨0, .Sequence ['-'], mkSeqReason (excerpt ('+' :: ((e0 :: ed') ++ r)) 0)⟩ := by
        rw [show str "-" = ['-'] from rfl,
          show (['+'] ++ (e0 :: ed')) ++ r = '+' :: ((e0 :: ed') ++ r) from rfl]
        exact seq_mismatch0 '-' '+' [] ((e0 :: ed') ++ r) (by decide)
      have hp : sequence (str "+") ((['+'] ++ (e0 :: ed')) ++ r)
          = .ok ((e0 :: ed') ++ r) ['+'] := by
        rw [show str "+" = ['+'] from rfl,
          show (['+'] ++ (e0 :: ed')) ++ r = ['+'] ++ ((e0 :: ed') ++ r) from rfl]
        exact seq_append ['+'] ((e0 :: ed') ++ r) (by simp)
      have hsign : (mapP (opt (orP (valueP (-1 : Int) (sequence (str "-")))
          (valueP (1 : Int) (sequence (str "+"))))) (fun o => o.getD 1))
          ((['+'] ++ (e0 :: ed')) ++ r) = .ok ((e0 :: ed') ++ r) (1 : Int) := by
        rw [map_ok _ _ _ _ _ (opt_ok _ _ _ _
          ((or_err _ _ _ _ (value_err _ _ _ _ hm)).trans (value_ok _ _ _ _ _ hp)))]
        rfl
      unfold exponentP
      rw [map_ok _ _ _ _ _ (opt_ok _ _ _ _ (mapPanic_ok _ _ _ _ _ _
        (and_ok _ _ _ _ _ _ _ ((discard_ok _ _ _ _ _ han).trans hsign) hdigits) hparse))]
      simp [expPart]

/-- `json_number` on a decomposed well-formed number token followed by a
non-extending remainder. -/
theorem json_number_ok (sgn d fr ex r : Str)
    (hsgn : sgn = [] ∨ sgn = ['-'])
    (hd : d = ['0'] ∨ (d ≠ [] ∧ d.all isDigit10 = true ∧ d.head? ≠ some '0'))
    (hdb : digitsToNat d < 18446744073709551616)
    (hfr : fr = [] ∨ ∃ fd, fr = '.' :: fd ∧ fd ≠ [] ∧ fd.all isDigit10 = true)
    (hex : ex = [] ∨ ∃ ec es ed, (ec = 'e' ∨ ec = 'E') ∧ (es = [] ∨ es = ['-'] ∨ es = ['+'])
      ∧ ed ≠ [] ∧ ed.all isDigit10 = true ∧ digitsToNat ed ≤ 2147483647
      ∧ ex = ec :: (es ++ ed))
    (hr : r = [] ∨ ∃ c r', r = c :: r' ∧ isDigit10 c = false ∧ c ≠ '.' ∧ c ≠ 'e' ∧ c ≠ 'E') :
    json_number (sgn ++ (d ++ (fr ++ (ex ++ r)))) =
      .ok r (JsonValue.Number (calculate_number (numSign sgn) (digitsToNat d)
        (fracPart fr) (expPart ex))) := by
  have hdcons : ∃ c d', d = c :: d' ∧ isDigit10 c = true := by
    rcases hd with rfl | ⟨h1, h2, h3⟩
    · exact ⟨'0', [], rfl, by decide⟩
    · cases d with
      | nil => exact absurd rfl h1
      | cons c d' =>
        refine ⟨c, d', rfl, ?_⟩
        simp only [List.all_cons, Bool.and_eq_true] at h2
        exact h2.1
  obtain ⟨c0, d0, hdeq, hc0⟩ := hdcons
  have hsig : signPart (sgn ++ (d ++ (fr ++ (ex ++ r)))) =
      .ok (d ++ (fr ++ (ex ++ r))) (numSign sgn) := by
    apply sign_ok sgn _ hsgn
    exact ⟨c0, d0 ++ (fr ++ (ex ++ r)), by rw [hdeq]; rfl, hc0⟩
  have ht2 : (fr ++ (ex ++ r)) = [] ∨
      ∃ c t', fr ++ (ex ++ r) = c :: t' ∧ isDigit10 c = false := by
    rcases hfr with rfl | ⟨fd, rfl, hfd1, hfd2⟩
    · rcases hex with rfl | ⟨ec, es, ed, hec, hes, hed1, hed2, hed3, rfl⟩
      · rcases hr with rfl | ⟨c, r', rfl, hcd, hcp, hce, hcE⟩
        · exact Or.inl rfl
        · exact Or.inr ⟨c, r', rfl, hcd⟩
      · refine Or.inr ⟨ec, (es ++ ed) ++ r, rfl, ?_⟩
        rcases hec with rfl | rfl <;> decide
    · exact Or.inr ⟨'.', fd ++ (ex ++ r), rfl, by decide⟩
  have hint : integral_part (d ++ (fr ++ (ex ++ r))) =
      .ok (fr ++ (ex ++ r)) (digitsToNat d) := integral_ok d _ hd hdb ht2
  have ht3 : (ex ++ r) = [] ∨
      ∃ c t', ex ++ r = c :: t' ∧ isDigit10 c = false ∧ c ≠ '.' := by
    rcases hex with rfl | ⟨ec, es, ed, hec, hes, hed1, hed2, hed3, rfl⟩
    · rcases hr with rfl | ⟨c, r', rfl, hcd, hcp, hce, hcE⟩
      · exact Or.inl rfl
      · exact Or.inr ⟨c, r', rfl, hcd, hcp⟩
    · refine Or.inr ⟨ec, (es ++ ed) ++ r, rfl, ?_⟩
      rcases hec with rfl | rfl <;> exact ⟨by decide, by decide⟩
  have hdec : decimal_part (fr ++ (ex ++ r)) = .ok (ex ++ r) (fracPart fr) :=
    decimal_ok fr _ hfr ht3
  have hr' : r = [] ∨ ∃ c r', r = c :: r' ∧ isDigit10 c = false ∧ c ≠ 'e' ∧ c ≠ 'E' := by
    rcases hr with rfl | ⟨c, r', rfl, hcd, hcp, hce, hcE⟩
    · exact Or.inl rfl
    · exact Or.inr ⟨c, r', rfl, hcd, hce, hcE⟩
  have hexp : exponentP (ex ++ r) = .ok r (expPart ex) := exponent_ok ex r hex hr'
  unfold json_number
  rw [map_ok _ _ _ _ _ (and_ok _ _ _ _ _ _ _ (and_ok _ _ _ _ _ _ _
    (and_ok _ _ _ _ _ _ _ hsig hint) hdec) hexp)]

/-- On an input whose head is a minus sign or a digit, the five alternatives
tried before `json_number` all fail. -/
theorem json_alts_err (c : Char) (rest : Str) (jv : Parser JsonValue)
    (hc : c = '-' ∨ isDigit10 c = true) :
    ∃ e, (orP (orP (orP (orP nullP boolean) (arrayG jv)) (objectG jv))
      (mapP stringP JsonValue.String)) (c :: rest) = .err e := by
  have hn : ('n' : Char) ≠ c := by
    rcases hc with rfl | hdig
    · decide
    · exact Ne.symm (digit_ne c 'n' hdig (by decide))
  have htr : ('t' : Char) ≠ c := by
    rcases hc with rfl | hdig
    · decide
    · exact Ne.symm (digit_ne c 't' hdig (by decide))
  have hf : ('f' : Char) ≠ c := by
    rcases hc with rfl | hdig
    · decide
    · exact Ne.symm (digit_ne c 'f' hdig (by decide))
  have hbr : ('[' : Char) ≠ c := by
    rcases hc with rfl | hdig
    · decide
    · exact Ne.symm (digit_ne c '[' hdig (by decide))
  have hob : ('\x7b' : Char) ≠ c := by
    rcases hc with rfl | hdig
    · decide
    · exact Ne.symm (digit_ne c '\x7b' hdig (by decide))
  have hq : ('"' : Char) ≠ c := by
    rcases hc with rfl | hdig
    · decide
    · exact Ne.symm (digit_ne c '"' hdig (by decide))
  have hnull : nullP (c :: rest) = .err
      ⟨0, .Sequence (str "null"), mkSeqReason (excerpt (c :: rest) 0)⟩ := by
    apply map_err
    rw [show str "null" = 'n' :: ['u', 'l', 'l'] from rfl]
    exact seq_mismatch0 'n' c ['u', 'l', 'l'] rest hn
  have hbool : boolean (c :: rest) = .err
      ⟨0, .Sequence (str "false"), mkSeqReason (excerpt (c :: rest) 0)⟩ := by
    apply map_err
    have h1 : sequence (str "true") (c :: rest) = .err
        ⟨0, .Sequence (str "true"), mkSeqReason (excerpt (c :: rest) 0)⟩ := by
      rw [show str "true" = 't' :: ['r', 'u', 'e'] from rfl]
      exact seq_mismatch0 't' c ['r', 'u', 'e'] rest htr
    have h2 : sequence (str "false") (c :: rest) = .err
        ⟨0, .Sequence (str "false"), mkSeqReason (excerpt (c :: rest) 0)⟩ := by
      rw [show str "false" = 'f' :: ['a', 'l', 's', 'e'] from rfl]
      exact seq_mismatch0 'f' c ['a', 'l', 's', 'e'] rest hf
    exact (or_err _ _ _ _ h1).trans h2
  have harr : arrayG jv (c :: rest) = .err
      ⟨0, .Sequence (str "["), mkSeqReason (excerpt (c :: rest) 0)⟩ := by
    apply wrapped_err1
    rw [show str "[" = ['['] from rfl]
    exact seq_mismatch0 '[' c [] rest hbr
  have hobj : objectG jv (c :: rest) = .err
      ⟨0, .Sequence (str "\x7b"), mkSeqReason (excerpt (c :: rest) 0)⟩ := by
    apply map_err
    apply wrapped_err1
    rw [show str "\x7b" = ['\x7b'] from rfl]
    exact seq_mismatch0 '\x7b' c [] rest hob
  have hstr : mapP stringP JsonValue.String (c :: rest) = .err
      ⟨0, .Sequence (str "\""), mkSeqReason (excerpt (c :: rest) 0)⟩ := by
    apply map_err
    apply wrapped_err1
    rw [show str "\"" = ['"'] from rfl]
    exact seq_mismatch0 '"' c [] rest hq
  exact ⟨⟨0, .Sequence (str "\""), mkSeqReason (excerpt (c :: rest) 0)⟩,
    ((or_err _ _ _ _ ((or_err _ _ _ _ ((or_err _ _ _ _
      ((or_err _ _ _ _ hnull).trans hbool)).trans harr)).trans hobj)).trans hstr)⟩

/-- Unfolding `jsonValueF` at positive fuel. -/
theorem jsonValueF_succ (f : Nat) :
    jsonValueF (f + 1) = discardP ws
      (orP
        (orP
          (orP (orP (orP nullP boolean) (arrayG (jsonValueF f))) (objectG (jsonValueF f)))
          (mapP stringP JsonValue.String))
        json_number) := rfl

/-- Claim C3 (counterexample): the input `99999999999999999999` consists
entirely of a valid JSON number literal, yet `json_value` panics (the integral
part overflows the `u64` parse, whose result is `unwrap`ped) instead of
succeeding with the corresponding `Number` value. -/
theorem c3_counterexample : json_value (str "99999999999999999999") = .panic := rfl

/-- Claim C3 (amended): `json_value` skips leading whitespace and then tries, in
a fixed order, the six alternatives null, boolean, array, object, string,
number.  For every input `w ++ sgn ++ d ++ fr ++ ex ++ r` — whitespace, then a
valid JSON number literal whose integral part fits in a `u64` and whose
exponent digits fit in an `i32`, then a remainder that cannot extend the number
token — `json_value` succeeds, returning remainder `r` and the `Number` given
by the code's formula `(sign * (integral + fraction)) ^ exponent`. -/
theorem c3_json_value_number (w sgn d fr ex r : Str)
    (hw : ∀ c ∈ w, isWs c = true)
    (hsgn : sgn = [] ∨ sgn = ['-'])
    (hd : d = ['0'] ∨ (d ≠ [] ∧ d.all isDigit10 = true ∧ d.head? ≠ some '0'))
    (hdb : digitsToNat d < 18446744073709551616)
    (hfr : fr = [] ∨ ∃ fd, fr = '.' :: fd ∧ fd ≠ [] ∧ fd.all isDigit10 = true)
    (hex : ex = [] ∨ ∃ ec es ed, (ec = 'e' ∨ ec = 'E') ∧ (es = [] ∨ es = ['-'] ∨ es = ['+'])
      ∧ ed ≠ [] ∧ ed.all isDigit10 = true ∧ digitsToNat ed ≤ 2147483647
      ∧ ex = ec :: (es ++ ed))
    (hr : r = [] ∨ ∃ c r', r = c :: r' ∧ isDigit10 c = false ∧ c ≠ '.' ∧ c ≠ 'e' ∧ c ≠ 'E') :
    json_value (w ++ (sgn ++ (d ++ (fr ++ (ex ++ r))))) =
      .ok r (JsonValue.Number (calculate_number (numSign sgn) (digitsToNat d)
        (fracPart fr) (expPart ex))) := by
  have hdcons : ∃ c d', d = c :: d' ∧ isDigit10 c = true := by
    rcases hd with rfl | ⟨h1, h2, h3⟩
    · exact ⟨'0', [], rfl, by decide⟩
    · cases d with
      | nil => exact absurd rfl h1
      | cons c d' =>
        refine ⟨c, d', rfl, ?_⟩
        simp only [List.all_cons, Bool.and_eq_true] at h2
        exact h2.1
  obtain ⟨c0, d0, hdeq, hc0⟩ := hdcons
  have hTcons : ∃ cT tT, (sgn ++ (d ++ (fr ++ (ex ++ r)))) = cT :: tT ∧
      (cT = '-' ∨ isDigit10 cT = true) := by
    rcases hsgn with rfl | rfl
    · exact ⟨c0, d0 ++ (fr ++ (ex ++ r)), by rw [hdeq]; rfl, Or.inr hc0⟩
    · exact ⟨'-', d ++ (fr ++ (ex ++ r)), rfl, Or.inl rfl⟩
  obtain ⟨cT, tT, hTeq, hcT⟩ := hTcons
  have hws : ∃ o, ws (w ++ (sgn ++ (d ++ (fr ++ (ex ++ r))))) =
      .ok (sgn ++ (d ++ (fr ++ (ex ++ r)))) o := by
    apply ws_skip w _ hw
    refine Or.inr ⟨cT, tT, hTeq, ?_⟩
    rcases hcT with rfl | hdig
    · decide
    · exact digit_not_ws cT hdig
  obtain ⟨o, hws⟩ := hws
  show jsonValueF ((w ++ (sgn ++ (d ++ (fr ++ (ex ++ r))))).length + 1)
    (w ++ (sgn ++ (d ++ (fr ++ (ex ++ r))))) = _
  rw [jsonValueF_succ, discard_ok _ _ _ _ _ hws, hTeq]
  obtain ⟨e, halts⟩ := json_alts_err cT tT (jsonValueF ((w ++ cT :: tT).length)) hcT
  rw [or_err _ _ _ _ halts, ← hTeq]
  exact json_number_ok sgn d fr ex r hsgn hd hdb hfr hex hr

/-- Witness for C3 (amended) at the concrete input `" -15.3E2"`. -/
theorem c3_json_value_number_witness :
    json_value ([' '] ++ (['-'] ++ (['1', '5'] ++ (['.', '3'] ++ (['E', '2'] ++ []))))) =
      .ok [] (JsonValue.Number (calculate_number (numSign ['-']) (digitsToNat ['1', '5'])
        (fracPart ['.', '3']) (expPart ['E', '2']))) :=
  c3_json_value_number [' '] ['-'] ['1', '5'] ['.', '3'] ['E', '2'] []
    (by decide) (by decide)
    (Or.inr ⟨by decide, by decide, by decide⟩) (by decide)
    (Or.inr ⟨['3'], rfl, by decide, by decide⟩)
    (Or.inr ⟨'E', [], ['2'], Or.inr rfl, Or.inl rfl, by decide, by decide, by decide, rfl⟩)
    (Or.inl rfl)

/-- Claim C4: `json_number` decodes `-15.3E2` to the double given by the
documented exponent-combination formula, which raises the entire signed
mantissa to the exponent power: `(-1 * (15 + 0.3)) ^ 2 = 234.09` — not the
textbook `sign * (integral + fraction) * 10 ^ exponent = -1530`. -/
theorem c4_number_formula :
    json_number (str "-15.3E2") = .ok [] (JsonValue.Number (23409 / 100)) ∧
    (23409 / 100 : ℚ) ≠ (-1 : ℚ) * (15 + 3 / 10) * qpowNat 10 2 := by
  constructor
  · have h1 : json_number (str "-15.3E2") = .ok [] (JsonValue.Number
        (calculate_number (-1) (digitsToNat ['1', '5']) (fracVal ['3'])
          ((1 : Int) * (digitsToNat ['2'] : Int)))) := rfl
    rw [h1]
    have h2 : calculate_number (-1) (digitsToNat ['1', '5']) (fracVal ['3'])
        ((1 : Int) * (digitsToNat ['2'] : Int)) = 23409 / 100 := by
      norm_num [calculate_number, fracVal, qpowi, qpowNat,
        show digitsToNat ['1', '5'] = 15 from by decide,
        show digitsToNat ['3'] = 3 from by decide,
        show digitsToNat ['2'] = 2 from by decide]
    rw [h2]
  · norm_num [qpowNat]

/-! ## Mismatch existence for non-prefix inputs -/

theorem mismatch_exists (s i : Str) (h1 : startsWith i s = false)
    (h2 : startsWith s i = false) : ∃ pos, firstMismatch i s = some pos := by
  induction s generalizing i with
  | nil =>
    exfalso
    simp [startsWith] at h1
  | cons a s' ih =>
    cases i with
    | nil =>
      exfalso
      simp [startsWith] at h2
    | cons b i' =>
      by_cases hab : a = b
      · subst hab
        have h1' : startsWith i' s' = false := by
          simpa [startsWith, List.take_succ_cons] using h1
        have h2' : startsWith s' i' = false := by
          simpa [startsWith, List.take_succ_cons] using h2
        obtain ⟨pos, hpos⟩ := ih i' h1' h2'
        refine ⟨pos + 1, ?_⟩
        simp only [firstMismatch, List.zip_cons_cons, List.findIdx?_cons]
        have : (a != a) = false := by simp
        rw [this]
        simp only [if_false, List.findIdx?_succ]
        simp only [firstMismatch] at hpos
        rw [hpos]
        rfl
      · refine ⟨0, ?_⟩
        have : (b != a) = true := by simpa [bne_iff_ne] using (Ne.symm hab)
        simp [firstMismatch, List.zip_cons_cons, List.findIdx?_cons, this]

/-! ## Fuel lemmas for `Many` and `Sep` -/

theorem manyLoop_fuel_inv {α : Type} (p : Parser α)
    (hp : ∀ s r v, p s = .ok r v → r.length ≤ s.length) :
    ∀ f1 f2 ipt acc, ipt.length < f1 → ipt.length < f2 →
      manyLoop p f1 ipt acc = manyLoop p f2 ipt acc := by
  intro f1
  induction f1 with
  | zero => intro f2 ipt acc h1; omega
  | succ n ih =>
    intro f2 ipt acc h1 h2
    cases f2 with
    | zero => omega
    | succ m =>
      simp only [manyLoop]
      by_cases hz : ipt.length = 0
      · simp [hz]
      · simp only [hz, if_false]
        cases hpi : p ipt with
        | ok i res =>
          by_cases hlen : i.length = ipt.length
          · simp [hlen]
          · have hle : i.length ≤ ipt.length := hp ipt i res hpi
            have hlt : i.length < ipt.length := lt_of_le_of_ne hle hlen
            simp only [hlen, if_false]
            exact ih m i (acc ++ [res]) (by omega) (by omega)
        | err e => rfl
        | panic => rfl

theorem manyLoop_ok {α : Type} (p : Parser α)
    (hp : ∀ s r v, p s = .ok r v → r.length ≤ s.length)
    (hnp : ∀ s, p s ≠ .panic) :
    ∀ fuel ipt acc, ipt.length < fuel → (manyLoop p fuel ipt acc).isOk = true := by
  intro fuel
  induction fuel with
  | zero => intro ipt acc h; omega
  | succ n ih =>
    intro ipt acc h
    simp only [manyLoop]
    by_cases hz : ipt.length = 0
    · simp [hz, PResult.isOk]
    · simp only [hz, if_false]
      cases hpi : p ipt with
      | ok i res =>
        by_cases hlen : i.length = ipt.length
        · simp [hlen, PResult.isOk]
        · have hle : i.length ≤ ipt.length := hp ipt i res hpi
          simp only [hlen, if_false]
          exact ih i (acc ++ [res]) (by omega)
      | err e => rfl
      | panic => exact absurd hpi (hnp ipt)

theorem sepLoop_noerr {α β : Type} (p : Parser α) (s : Parser β) :
    ∀ fuel i acc, (sepLoop p s fuel i acc).isErr = false := by
  intro fuel
  induction fuel with
  | zero => intro i acc; rfl
  | succ n ih =>
    intro i acc
    cases hpi : p i with
    | ok next res =>
      cases hsi : s next with
      | ok next2 w =>
        simp only [sepLoop, hpi, hsi]
        exact ih next2 (acc ++ [res])
      | err e => simp [sepLoop, hpi, hsi, PResult.isErr]
      | panic => simp [sepLoop, hpi, hsi, PResult.isErr]
    | err e => simp [sepLoop, hpi, PResult.isErr]
    | panic => simp [sepLoop, hpi, PResult.isErr]

/-- On success, `sequence` never lengthens the input. -/
theorem sequence_le (m : Str) : ∀ s r v, sequence m s = .ok r v → r.length ≤ s.length := by
  intro s r v h
  unfold sequence at h
  by_cases he : s.isEmpty
  · rw [if_pos he] at h
    cases h
  · rw [if_neg he] at h
    cases fm : firstMismatch s m with
    | some pos =>
      rw [fm] at h
      cases h
    | none =>
      rw [fm] at h
      by_cases hlen : m.length ≤ s.length
      · rw [if_pos hlen] at h
        cases h
        simp
      · rw [if_neg hlen] at h
        cases h

/-- `sequence` with a one-character literal never panics. -/
theorem sequence_single_no_panic (c : Char) : ∀ s, sequence [c] s ≠ .panic := by
  intro s h
  unfold sequence at h
  cases s with
  | nil => cases h
  | cons a l =>
    rw [if_neg (by simp)] at h
    cases fm : firstMismatch (a :: l) [c] with
    | some pos =>
      rw [fm] at h
      cases h
    | none =>
      rw [fm] at h
      rw [if_pos (by simp)] at h
      cases h

/-! ## Claim theorems for the combinator core -/

/-- Claim C1 (code bug): when `And` has consumed 2 units via its first parser
and the second fails at its own offset 0, the failure is propagated with
offset 0, not the claimed 2 + 0 — `ParserError::from_error`, which would
perform exactly that re-basing, exists but is never called. -/
theorem c1_offset_not_rebased :
    (andP (sequence (str "ab")) (sequence (str "cd")) (str "abXd")).errIndex = some 0 ∧
    (ParserError.from_error ⟨0, .Sequence (str "cd"), mkSeqReason ['X', 'd']⟩ 2).index = 2 :=
  ⟨rfl, rfl⟩

/-- Claim C2 (counterexample): `sequence("ab")` applied to `"a"` (an input of
which the literal is not a prefix) panics — an out-of-bounds `split_at` —
instead of returning a failure; and `sequence("")` applied to `""` (the
literal plus the empty continuation) fails instead of succeeding. -/
theorem c2_counterexample :
    sequence (str "ab") (str "a") = .panic ∧ (sequence (str "") (str "")).isErr = true :=
  ⟨rfl, rfl⟩

/-- Claim C2 (amended): `sequence(s)` on `s ++ r` succeeds with remainder `r`
and output `s` whenever `s ++ r` is nonempty; it returns a failure on any
input of which `s` is not a prefix, provided the input is empty or has an
actual character mismatch with `s`; on a nonempty proper prefix of `s` it
panics instead of failing. -/
theorem c2_sequence_spec (s r i1 i2 : Str)
    (hsr : s ++ r ≠ [])
    (hnp1 : startsWith i1 s = false)
    (hne1 : i1 = [] ∨ startsWith s i1 = false)
    (hi2 : i2 ≠ []) (hpre2 : startsWith s i2 = true) (hne2 : i2 ≠ s) :
    sequence s (s ++ r) = .ok r s ∧ (sequence s i1).isErr = true ∧
      sequence s i2 = .panic := by
  refine ⟨seq_append s r hsr, ?_, ?_⟩
  · rcases hne1 with rfl | hne1
    · simp [sequence, PResult.isErr]
    · have hi1 : i1 ≠ [] := by
        intro h
        subst h
        simp [startsWith] at hne1
      obtain ⟨pos, hpos⟩ := mismatch_exists s i1 hnp1 hne1
      have he : i1.isEmpty = false := by
        cases i1 with
        | nil => exact absurd rfl hi1
        | cons a l => rfl
      simp [sequence, he, hpos, PResult.isErr]
  · have hpre : ∃ t, s = i2 ++ t := by
      refine ⟨s.drop i2.length, ?_⟩
      simp only [startsWith, decide_eq_true_eq] at hpre2
      conv_lhs => rw [← List.take_append_drop i2.length s]
      rw [hpre2]
    have hlt : i2.length < s.length := by
      obtain ⟨t, ht⟩ := hpre
      have : t ≠ [] := by
        intro h
        rw [h, List.append_nil] at ht
        exact hne2 ht.symm
      have : 0 < t.length := by
        cases t with
        | nil => exact absurd rfl this
        | cons a l => simp
      rw [ht]
      simp only [List.length_append]
      omega
    exact seq_short_panic s i2 hi2 hpre hlt

/-- Witness for C2 (amended): `s = "ab"`, `r = "c"`, mismatch input `"ax"`,
proper-prefix input `"a"`. -/
theorem c2_sequence_spec_witness :
    sequence (str "ab") ((str "ab") ++ (str "c")) = .ok (str "c") (str "ab") ∧
      (sequence (str "ab") (str "ax")).isErr = true ∧
      sequence (str "ab") (str "a") = .panic :=
  c2_sequence_spec (str "ab") (str "c") (str "ax") (str "a")
    (by decide) (by decide) (Or.inr (by decide)) (by decide) (by decide) (by decide)

/-- Claim C5: for a sub-parser that never lengthens its input and never
panics, `many(P)` always returns a success, and its loop is finished within
`input.length + 1` iterations: any extra fuel beyond that leaves the result
unchanged. -/
theorem c5_many_succeeds {α : Type} (p : Parser α) (input : Str) (extra : Nat)
    (hp : ∀ s r v, p s = .ok r v → r.length ≤ s.length)
    (hnp : ∀ s, p s ≠ .panic) :
    (manyP p input).isOk = true ∧
      manyLoop p (input.length + 1 + extra) input [] = manyP p input := by
  constructor
  · exact manyLoop_ok p hp hnp _ input [] (by omega)
  · exact manyLoop_fuel_inv p hp _ _ input [] (by omega) (by omega)

/-- Witness for C5 at `P = sequence("a")` on input `"aab"` with 2 extra fuel. -/
theorem c5_many_succeeds_witness :
    (manyP (sequence ['a']) (str "aab")).isOk = true ∧
      manyLoop (sequence ['a']) ((str "aab").length + 1 + 2) (str "aab") []
        = manyP (sequence ['a']) (str "aab") :=
  c5_many_succeeds (sequence ['a']) (str "aab") 2 (sequence_le ['a'])
    (sequence_single_no_panic 'a')

/-- Claim C6: `or(A,B)` returns `A`'s outcome whenever `A` does not fail, and
otherwise returns exactly the outcome of running `B` alone on the same
original input — `A`'s partial consumption and failure are discarded. -/
theorem c6_or_semantics (α : Type) (a b : Parser α) (input : Str) :
    orP a b input = if (a input).isErr = true then b input else a input := by
  cases h : a input <;> simp [orP, PResult.isErr, h]

/-- Claim C9: `sep_by(P,S)` never returns a failure, and when the first run of
`P` fails it succeeds with the empty sequence and the input unconsumed — the
grammar admits zero elements. -/
theorem c9_sep_empty_ok (α β : Type) (p : Parser α) (s : Parser β) (input i2 : Str)
    (e : ParserError) (h : p input = .err e) :
    (sepP p s i2).isErr = false ∧ sepP p s input = .ok input [] := by
  constructor
  · exact sepLoop_noerr p s _ i2 []
  · show sepLoop p s (input.length + 1) input [] = .ok input []
    simp [sepLoop, h]

/-- Witness for C9: element parser `sequence("a")`, separator `sequence(",")`,
inputs `"b"` (first element fails) and `"xyz"`. -/
theorem c9_sep_empty_ok_witness :
    (sepP (sequence ['a']) (sequence [',']) (str "xyz")).isErr = false ∧
      sepP (sequence ['a']) (sequence [',']) (str "b") = .ok (str "b") [] :=
  c9_sep_empty_ok _ _ (sequence ['a']) (sequence [',']) (str "b") (str "xyz")
    ⟨0, .Sequence ['a'], mkSeqReason ['b']⟩ rfl

/-- Claim C10: `sep_by(P,S)` consumes a trailing separator: if on a nonempty
input `P` succeeds, then `S` succeeds, and then the next run of `P` fails, the
returned remainder starts after the separator and the separator's consumption
is not undone. -/
theorem c10_sep_trailing (α β : Type) (p : Parser α) (s : Parser β)
    (input i1 i2 : Str) (v : α) (u : β) (e : ParserError)
    (hlen : 0 < input.length)
    (h1 : p input = .ok i1 v) (h2 : s i1 = .ok i2 u) (h3 : p i2 = .err e) :
    sepP p s input = .ok i2 [v] := by
  obtain ⟨k, hk⟩ : ∃ k, input.length = k + 1 := ⟨input.length - 1, by omega⟩
  show sepLoop p s (input.length + 1) input [] = .ok i2 [v]
  rw [hk]
  simp [sepLoop, h1, h2, h3]

/-- Witness for C10: `sep_by(sequence("1"), sequence(","))` on `"1,"` returns
remainder `""` with the single-element result. -/
theorem c10_sep_trailing_witness :
    sepP (sequence ['1']) (sequence [',']) (str "1,") = .ok [] [['1']] :=
  c10_sep_trailing _ _ (sequence ['1']) (sequence [',']) (str "1,") [','] [] ['1'] [',']
    ⟨0, .Sequence ['1'], "empty sequence"⟩ (by decide) rfl rfl rfl

/-- Claim C8: parsing the object text with a duplicate key yields a mapping
with exactly one entry, key `a` bound to the value `2` — the last duplicate
written wins. -/
theorem c8_duplicate_keys :
    json_object (str "\x7b\"a\":1,\"a\":2\x7d") =
      .ok [] (JsonValue.Object [(['a'], JsonValue.Number 2)]) := by
  have h1 : json_object (str "\x7b\"a\":1,\"a\":2\x7d") =
      .ok [] (JsonValue.Object [(['a'], JsonValue.Number
        (calculate_number 1 (digitsToNat ['2']) 0 1))]) := rfl
  rw [h1, show calculate_number 1 (digitsToNat ['2']) 0 1 = 2 from by
    norm_num [calculate_number, qpowi, qpowNat, show digitsToNat ['2'] = 2 from by decide]]

/-! ## Inversion lemmas for the consumption invariant -/

theorem map_ok_inv {α β : Type} (p : Parser α) (f : α → β) (i r : Str) (b : β)
    (h : mapP p f i = .ok r b) : ∃ a, p i = .ok r a := by
  unfold mapP at h
  cases hpi : p i <;> rw [hpi] at h <;> cases h
  exact ⟨_, rfl⟩

theorem and_ok_inv {α β : Type} (f : Parser α) (s : Parser β) (i r : Str) (v : α × β)
    (h : andP f s i = .ok r v) : ∃ mid a b, f i = .ok mid a ∧ s mid = .ok r b := by
  cases hf : f i with
  | ok mid a =>
    simp only [andP, hf] at h
    cases hs : s mid with
    | ok rem val =>
      simp only [hs] at h
      cases h
      exact ⟨mid, a, val, rfl, hs⟩
    | err e =>
      simp only [hs] at h
      cases h
    | panic =>
      simp only [hs] at h
      cases h
  | err e =>
    simp only [andP, hf] at h
    cases h
  | panic =>
    simp only [andP, hf] at h
    cases h

theorem or_ok_inv {α : Type} (f g : Parser α) (i r : Str) (v : α)
    (h : orP f g i = .ok r v) : f i = .ok r v ∨ g i = .ok r v := by
  unfold orP at h
  cases hf : f i <;> rw [hf] at h
  · cases h
    exact Or.inl rfl
  · exact Or.inr h
  · cases h

theorem wrapped_ok_inv {α β γ : Type} (l : Parser α) (p : Parser β) (q : Parser γ)
    (i r : Str) (v : β) (h : wrappedP l p q i = .ok r v) :
    ∃ i1 i2 a b c, l i = .ok i1 a ∧ p i1 = .ok i2 b ∧ q i2 = .ok r c := by
  cases hl : l i with
  | ok i1 a =>
    simp only [wrappedP, hl] at h
    cases hp : p i1 with
    | ok i2 b =>
      simp only [hp] at h
      cases hq : q i2 with
      | ok i3 c =>
        simp only [hq] at h
        cases h
        exact ⟨i1, i2, a, _, _, rfl, hp, hq⟩
      | err e =>
        simp only [hq] at h
        cases h
      | panic =>
        simp only [hq] at h
        cases h
    | err e =>
      simp only [hp] at h
      cases h
    | panic =>
      simp only [hp] at h
      cases h
  | err e =>
    simp only [wrappedP, hl] at h
    cases h
  | panic =>
    simp only [wrappedP, hl] at h
    cases h

theorem discard_ok_inv {α β : Type} (d : Parser α) (p : Parser β) (i r : Str) (v : β)
    (h : discardP d p i = .ok r v) : ∃ i1 a, d i = .ok i1 a ∧ p i1 = .ok r v := by
  cases hd : d i with
  | ok i1 a =>
    simp only [discardP, hd] at h
    exact ⟨i1, a, rfl, h⟩
  | err e =>
    simp only [discardP, hd] at h
    cases h
  | panic =>
    simp only [discardP, hd] at h
    cases h

theorem opt_ok_inv {α : Type} (f : Parser α) (i r : Str) (o : Option α)
    (h : opt f i = .ok r o) : (∃ v, f i = .ok r v) ∨ r = i := by
  cases hf : f i with
  | ok r2 v =>
    simp only [opt, hf] at h
    cases h
    exact Or.inl ⟨v, rfl⟩
  | err e =>
    simp only [opt, hf] at h
    cases h
    exact Or.inr rfl
  | panic =>
    simp only [opt, hf] at h
    cases h

theorem pif_ok_inv {α β : Type} (c : Parser α) (p : Parser β) (i r : Str) (o : Option β)
    (h : parse_if c p i = .ok r o) :
    (∃ i1 a v, c i = .ok i1 a ∧ p i1 = .ok r v) ∨ r = i := by
  cases hc : c i with
  | ok i1 a =>
    simp only [parse_if, hc] at h
    cases hp : p i1 with
    | ok rem val =>
      simp only [hp] at h
      cases h
      exact Or.inl ⟨i1, a, val, rfl, hp⟩
    | err e =>
      simp only [hp] at h
      cases h
    | panic =>
      simp only [hp] at h
      cases h
  | err e =>
    simp only [parse_if, hc] at h
    cases h
    exact Or.inr rfl
  | panic =>
    simp only [parse_if, hc] at h
    cases h

/-! ## Length bounds for the primitives -/

theorem take_while_le (pred : Char → Bool) : ∀ s r v,
    take_while pred s = .ok r v → r.length ≤ s.length := by
  intro s r v h
  unfold take_while at h
  by_cases he : s.isEmpty
  · rw [if_pos he] at h
    cases h
  · rw [if_neg he] at h
    cases fm : s.findIdx? (fun c => !(pred c)) with
    | some pos =>
      simp only [fm] at h
      by_cases hz : pos = 0
      · rw [if_pos hz] at h
        cases h
      · rw [if_neg hz] at h
        cases h
        simp
    | none =>
      simp only [fm] at h
      cases h
      simp

theorem take_while_lt (pred : Char → Bool) : ∀ s r v,
    take_while pred s = .ok r v → r.length < s.length := by
  intro s r v h
  unfold take_while at h
  by_cases he : s.isEmpty
  · rw [if_pos he] at h
    cases h
  · rw [if_neg he] at h
    have hs : 0 < s.length := by
      cases s with
      | nil => simp at he
      | cons a l => simp
    cases fm : s.findIdx? (fun c => !(pred c)) with
    | some pos =>
      simp only [fm] at h
      by_cases hz : pos = 0
      · rw [if_pos hz] at h
        cases h
      · rw [if_neg hz] at h
        cases h
        simp only [List.length_drop]
        omega
    | none =>
      simp only [fm] at h
      cases h
      simpa using hs

theorem sequence_lt (m : Str) (hm : m.isEmpty = false) : ∀ s r v,
    sequence m s = .ok r v → r.length < s.length := by
  intro s r v h
  unfold sequence at h
  by_cases he : s.isEmpty
  · rw [if_pos he] at h
    cases h
  · rw [if_neg he] at h
    cases fm : firstMismatch s m with
    | some pos =>
      rw [fm] at h
      cases h
    | none =>
      rw [fm] at h
      by_cases hlen : m.length ≤ s.length
      · rw [if_pos hlen] at h
        cases h
        have hm1 : 0 < m.length := by
          cases m with
          | nil => simp at hm
          | cons a l => simp
        simp only [List.length_drop]
        omega
      · rw [if_neg hlen] at h
        cases h

/-! ## Length bounds for the loops -/

theorem manyLoop_le {α : Type} (p : Parser α)
    (hp : ∀ s r v, p s = .ok r v → r.length ≤ s.length) :
    ∀ fuel ipt acc rem l, manyLoop p fuel ipt acc = .ok rem l → rem.length ≤ ipt.length := by
  intro fuel
  induction fuel with
  | zero => intro ipt acc rem l h; cases h
  | succ n ih =>
    intro ipt acc rem l h
    by_cases hz : ipt.length = 0
    · simp only [manyLoop, hz, if_true, if_pos] at h
      cases h
      omega
    · simp only [manyLoop, hz, if_false] at h
      cases hpi : p ipt with
      | ok i res =>
        simp only [hpi] at h
        by_cases hlen : i.length = ipt.length
        · rw [if_pos hlen] at h
          cases h
          omega
        · rw [if_neg hlen] at h
          have h1 := ih i (acc ++ [res]) rem l h
          have h2 := hp ipt i res hpi
          omega
      | err e =>
        simp only [hpi] at h
        cases h
        omega
      | panic =>
        simp only [hpi] at h
        cases h

theorem sepLoop_le {α β : Type} (p : Parser α) (s : Parser β)
    (hp : ∀ i2 r v, p i2 = .ok r v → r.length ≤ i2.length)
    (hs : ∀ i2 r v, s i2 = .ok r v → r.length ≤ i2.length) :
    ∀ fuel i acc rem l, sepLoop p s fuel i acc = .ok rem l → rem.length ≤ i.length := by
  intro fuel
  induction fuel with
  | zero => intro i acc rem l h; cases h
  | succ n ih =>
    intro i acc rem l h
    cases hpi : p i with
    | ok next res =>
      cases hsi : s next with
      | ok next2 w =>
        simp only [sepLoop, hpi, hsi] at h
        have h1 := ih next2 (acc ++ [res]) rem l h
        have h2 := hp i next res hpi
        have h3 := hs next next2 w hsi
        omega
      | err e =>
        simp only [sepLoop, hpi, hsi] at h
        cases h
        exact hp i rem res hpi
      | panic =>
        simp only [sepLoop, hpi, hsi] at h
        cases h
    | err e =>
      simp only [sepLoop, hpi] at h
      cases h
      omega
    | panic =>
      simp only [sepLoop, hpi] at h
      cases h

theorem duLoop_le {α : Type} (u : Parser α)
    (hu : ∀ s r v, u s = .ok r v → r.length ≤ s.length) (input : Str) :
    ∀ fuel offset rem v, duLoop u input fuel offset = .ok rem v →
      rem.length ≤ input.length := by
  intro fuel
  induction fuel with
  | zero => intro offset rem v h; cases h
  | succ n ih =>
    intro offset rem v h
    by_cases hoff : input.length ≤ offset
    · simp only [duLoop, hoff, if_true, if_pos] at h
      cases h
    · simp only [duLoop, hoff, if_false] at h
      cases hui : u (input.drop offset) with
      | ok r2 v2 =>
        rw [hui] at h
        cases h
        have h1 := hu (input.drop offset) rem v hui
        simp only [List.length_drop] at h1
        omega
      | err e =>
        rw [hui] at h
        exact ih (offset + 1) rem v h
      | panic =>
        rw [hui] at h
        cases h

theorem duLoop_lt {α : Type} (u : Parser α)
    (hu : ∀ s r v, u s = .ok r v → r.length < s.length) (input : Str) :
    ∀ fuel offset rem v, duLoop u input fuel offset = .ok rem v →
      rem.length < input.length := by
  intro fuel
  induction fuel with
  | zero => intro offset rem v h; cases h
  | succ n ih =>
    intro offset rem v h
    by_cases hoff : input.length ≤ offset
    · simp only [duLoop, hoff, if_true, if_pos] at h
      cases h
    · simp only [duLoop, hoff, if_false] at h
      cases hui : u (input.drop offset) with
      | ok r2 v2 =>
        rw [hui] at h
        cases h
        have h1 := hu (input.drop offset) rem v hui
        simp only [List.length_drop] at h1
        omega
      | err e =>
        rw [hui] at h
        exact ih (offset + 1) rem v h
      | panic =>
        rw [hui] at h
        cases h

/-! ## The consumption invariant over the whole combinator language -/

theorem denote_le : ∀ p : PSyn, ∀ i r u, denote p i = .ok r u → r.length ≤ i.length := by
  intro p
  induction p with
  | seqS m =>
    intro i r u h
    obtain ⟨a, ha⟩ := map_ok_inv _ _ _ _ _ h
    exact sequence_le m i r a ha
  | takeWhileS pred =>
    intro i r u h
    obtain ⟨a, ha⟩ := map_ok_inv _ _ _ _ _ h
    exact take_while_le pred i r a ha
  | andS a b iha ihb =>
    intro i r u h
    obtain ⟨v, hv⟩ := map_ok_inv _ _ _ _ _ h
    obtain ⟨mid, x, y, hx, hy⟩ := and_ok_inv _ _ _ _ _ hv
    exact le_trans (ihb mid r y hy) (iha i mid x hx)
  | orS a b iha ihb =>
    intro i r u h
    rcases or_ok_inv _ _ _ _ _ h with h1 | h1
    · exact iha i r u h1
    · exact ihb i r u h1
  | mapS p ihp =>
    intro i r u h
    exact ihp i r u h
  | manyS p ihp =>
    intro i r u h
    obtain ⟨l, hl⟩ := map_ok_inv _ _ _ _ _ h
    exact manyLoop_le (denote p) ihp _ i [] r l hl
  | sepS p s ihp ihs =>
    intro i r u h
    obtain ⟨l, hl⟩ := map_ok_inv _ _ _ _ _ h
    exact sepLoop_le (denote p) (denote s) ihp ihs _ i [] r l hl
  | wrappedS lft p rgt ihl ihp ihr =>
    intro i r u h
    obtain ⟨i1, i2, a, b, c, h1, h2, h3⟩ := wrapped_ok_inv _ _ _ _ _ _ h
    exact le_trans (ihr i2 r c h3) (le_trans (ihp i1 i2 b h2) (ihl i i1 a h1))
  | discardS d p ihd ihp =>
    intro i r u h
    obtain ⟨i1, a, h1, h2⟩ := discard_ok_inv _ _ _ _ _ h
    exact le_trans (ihp i1 r u h2) (ihd i i1 a h1)
  | optS p ihp =>
    intro i r u h
    obtain ⟨o, ho⟩ := map_ok_inv _ _ _ _ _ h
    rcases opt_ok_inv _ _ _ _ ho with ⟨v, hv⟩ | rfl
    · exact ihp i r v hv
    · exact le_refl _
  | parseIfS c p ihc ihp =>
    intro i r u h
    obtain ⟨o, ho⟩ := map_ok_inv _ _ _ _ _ h
    rcases pif_ok_inv _ _ _ _ _ ho with ⟨i1, a, v, h1, h2⟩ | rfl
    · exact le_trans (ihp i1 r v h2) (ihc i i1 a h1)
    · exact le_refl _
  | valueS p ihp =>
    intro i r u h
    obtain ⟨a, ha⟩ := map_ok_inv _ _ _ _ _ h
    exact ihp i r a ha
  | dropUntilS q ihq =>
    intro i r u h
    exact duLoop_le (denote q) ihq i _ 0 r u h

theorem denote_strict : ∀ p : PSyn, strictCons p = true →
    ∀ i r u, denote p i = .ok r u → r.length < i.length := by
  intro p
  induction p with
  | seqS m =>
    intro hst i r u h
    obtain ⟨a, ha⟩ := map_ok_inv _ _ _ _ _ h
    have hm : m.isEmpty = false := by
      simp only [strictCons, Bool.not_eq_true'] at hst
      exact hst
    exact sequence_lt m hm i r a ha
  | takeWhileS pred =>
    intro hst i r u h
    obtain ⟨a, ha⟩ := map_ok_inv _ _ _ _ _ h
    exact take_while_lt pred i r a ha
  | andS a b iha ihb =>
    intro hst i r u h
    obtain ⟨v, hv⟩ := map_ok_inv _ _ _ _ _ h
    obtain ⟨mid, x, y, hx, hy⟩ := and_ok_inv _ _ _ _ _ hv
    simp only [strictCons, Bool.or_eq_true] at hst
    rcases hst with h1 | h1
    · exact lt_of_le_of_lt (denote_le b mid r y hy) (iha h1 i mid x hx)
    · exact lt_of_lt_of_le (ihb h1 mid r y hy) (denote_le a i mid x hx)
  | orS a b iha ihb =>
    intro hst i r u h
    simp only [strictCons, Bool.and_eq_true] at hst
    rcases or_ok_inv _ _ _ _ _ h with h1 | h1
    · exact iha hst.1 i r u h1
    · exact ihb hst.2 i r u h1
  | mapS p ihp =>
    intro hst i r u h
    exact ihp hst i r u h
  | manyS p ihp =>
    intro hst
    simp [strictCons] at hst
  | sepS p s ihp ihs =>
    intro hst
    simp [strictCons] at hst
  | wrappedS lft p rgt ihl ihp ihr =>
    intro hst i r u h
    obtain ⟨i1, i2, a, b, c, h1, h2, h3⟩ := wrapped_ok_inv _ _ _ _ _ _ h
    simp only [strictCons, Bool.or_eq_true] at hst
    rcases hst with (hs1 | hs1) | hs1
    · calc r.length ≤ i2.length := denote_le rgt i2 r c h3
        _ ≤ i1.length := denote_le p i1 i2 b h2
        _ < i.length := ihl hs1 i i1 a h1
    · calc r.length ≤ i2.length := denote_le rgt i2 r c h3
        _ < i1.length := ihp hs1 i1 i2 b h2
        _ ≤ i.length := denote_le lft i i1 a h1
    · calc r.length < i2.length := ihr hs1 i2 r c h3
        _ ≤ i1.length := denote_le p i1 i2 b h2
        _ ≤ i.length := denote_le lft i i1 a h1
  | discardS d p ihd ihp =>
    intro hst i r u h
    obtain ⟨i1, a, h1, h2⟩ := discard_ok_inv _ _ _ _ _ h
    simp only [strictCons, Bool.or_eq_true] at hst
    rcases hst with h3 | h3
    · exact lt_of_le_of_lt (denote_le p i1 r u h2) (ihd h3 i i1 a h1)
    · exact lt_of_lt_of_le (ihp h3 i1 r u h2) (denote_le d i i1 a h1)
  | optS p ihp =>
    intro hst
    simp [strictCons] at hst
  | parseIfS c p ihc ihp =>
    intro hst
    simp [strictCons] at hst
  | valueS p ihp =>
    intro hst i r u h
    obtain ⟨a, ha⟩ := map_ok_inv _ _ _ _ _ h
    exact ihp hst i r a ha
  | dropUntilS q ihq =>
    intro hst i r u h
    exact duLoop_lt (denote q) (ihq hst) i _ 0 r u h

/-- Claim C7 (amended): for every parser expressible in the combinator
language and every input, a successful parse leaves a remainder no longer
than the input; the remainder is strictly shorter whenever the parser is
built without the zero-width-capable productions (`opt`, `parse_if`, `many`,
`sep_by`, and the empty literal). -/
theorem c7_consumption_invariant (p : PSyn) (i r : Str) (u : Unit)
    (h : denote p i = .ok r u) :
    r.length ≤ i.length ∧ (strictCons p = true → r.length < i.length) :=
  ⟨denote_le p i r u h, fun hs => denote_strict p hs i r u h⟩

/-- Witness for C7 (amended) at `and(sequence("a"), sequence("b"))` on
`"abc"`. -/
theorem c7_consumption_invariant_witness :
    (str "c").length ≤ (str "abc").length ∧
      (strictCons (PSyn.andS (PSyn.seqS ['a']) (PSyn.seqS ['b'])) = true →
        (str "c").length < (str "abc").length) :=
  c7_consumption_invariant (PSyn.andS (PSyn.seqS ['a']) (PSyn.seqS ['b']))
    (str "abc") (str "c") () rfl

/-- Claim C7 (counterexample): `sep_by` is none of `opt`, `many`, or an
optional part of the JSON number grammar, yet it succeeds while consuming
zero units: `sep_by(sequence("a"), sequence(","))` on `"b"` returns the whole
input unconsumed. -/
theorem c7_counterexample :
    claimStrict (PSyn.sepS (PSyn.seqS ['a']) (PSyn.seqS [','])) = true ∧
      denote (PSyn.sepS (PSyn.seqS ['a']) (PSyn.seqS [','])) (str "b")
        = .ok (str "b") () :=
  ⟨rfl, rfl⟩

end Pepser
